import Mathlib

set_option autoImplicit false

/-!
Verification of the TiDB graph stores (`base.py` simple triplet store and
`property_graph.py` property-graph store) of the llama_index integration.

The relational backing store is modelled with explicit list-based tables;
the recursive CTE `rel_depth_query` is modelled level by level; the Python
`defaultdict(list)` / `defaultdict(set)` used by `get_rel_map` are modelled
as insertion-ordered association lists (Python dicts preserve insertion
order; sets are determinized as insertion-ordered duplicate-free lists,
which only fixes an iteration order the source leaves unspecified).
-/

namespace TiDB

/-! ### Simple triplet store: schema (`base.py`, `init_schema`) -/

/-- Row of the `entities` table: integer primary key and a name. -/
structure SEntity where
  id : Nat
  name : String
  deriving DecidableEq, Repr

/-- Row of the `relationships` table: integer primary key, free-form
description and foreign keys to the subject and object entity rows. -/
structure SRel where
  id : Nat
  description : String
  subject_id : Nat
  object_id : Nat
  deriving DecidableEq, Repr

/-- Contents of the two tables of the simple store. -/
structure SimpleState where
  entities : List SEntity
  rels : List SRel
  deriving DecidableEq, Repr

/-- Triplet `[subject, relation-description, object]` as appended by
`get_rel_map` to the per-seed lists. -/
structure Trip where
  subj : String
  rel : String
  obj : String
  deriving DecidableEq, Repr

/-- Row of the `rel_depth_query` result stream after the name joins:
`(depth, subject-name, description, object-name)`. -/
structure CteRow where
  depth : Nat
  subj : String
  rel : String
  obj : String
  deriving DecidableEq, Repr

/-! ### Insertion-ordered multimap helpers (model of Python defaultdict) -/

/-- Lookup in an insertion-ordered association list; missing keys give `[]`,
as a Python `defaultdict` does. -/
def mget {κ α : Type} [DecidableEq κ] (m : List (κ × List α)) (k : κ) : List α :=
  match m with
  | [] => []
  | p :: rest => if p.1 = k then p.2 else mget rest k

/-- Update the entry of `k` with `f` (on `[]` when the key is absent, the
fresh entry being appended at the end, matching dict insertion order). -/
def mupd {κ α : Type} [DecidableEq κ] (m : List (κ × List α)) (k : κ)
    (f : List α → List α) : List (κ × List α) :=
  match m with
  | [] => [(k, f [])]
  | p :: rest => if p.1 = k then (p.1, f p.2) :: rest else p :: mupd rest k f

/-- Add an element to a set modelled as a duplicate-free list
(Python `set.update([x])`). -/
def setIns (l : List String) (x : String) : List String :=
  if x ∈ l then l else l ++ [x]

theorem mget_mupd {κ α : Type} [DecidableEq κ] (m : List (κ × List α)) (k k2 : κ)
    (f : List α → List α) :
    mget (mupd m k f) k2 = if k2 = k then f (mget m k) else mget m k2 := by
  induction m with
  | nil =>
    by_cases h : k2 = k
    · subst h; simp [mget, mupd]
    · have h2 : ¬ k = k2 := fun hc => h hc.symm
      simp [mget, mupd, h, h2]
  | cons p rest ih =>
    by_cases hp : p.1 = k
    · subst hp
      by_cases h : k2 = p.1
      · subst h; simp [mget, mupd]
      · have h2 : ¬ p.1 = k2 := fun hc => h hc.symm
        simp [mget, mupd, h, h2]
    · by_cases h : p.1 = k2
      · have hk2k : ¬ k2 = k := fun hc => hp (h.trans hc)
        simp [mget, mupd, hp, h, hk2k]
      · simp [mget, mupd, hp, h, ih]

theorem mem_setIns (l : List String) (x y : String) :
    y ∈ setIns l x ↔ y ∈ l ∨ y = x := by
  by_cases h : x ∈ l
  · simp only [setIns, if_pos h]
    constructor
    · exact Or.inl
    · rintro (hy | rfl)
      · exact hy
      · exact h
  · simp [setIns, if_neg h]

/-! ### Simple store: `get_rel_map` reconstruction pass (`base.py` 148-183) -/

/-- State of the reconstruction pass: `rel_map` (seed name to list of
depth-tagged triplets; the source keeps only the triplet, the depth tag
records which row's depth produced the entry) and `obj_reverse_map`
(`(node-name, depth)` to the set of seeds reaching that node at that depth). -/
abbrev RelMapD := List (String × List (Nat × Trip))

/-- Reverse index of `get_rel_map`: key `(object-name, depth)`, value the
set of seed names. -/
abbrev RevMap := List ((String × Nat) × List String)

/-- One iteration of the `for depth, subj, rel, obj in raw_rels` loop of
`TiDBGraphStore.get_rel_map`. -/
def relStep (acc : RelMapD × RevMap) (row : CteRow) : RelMapD × RevMap :=
  if row.depth = 1 then
    (mupd acc.1 row.subj (· ++ [(row.depth, ⟨row.subj, row.rel, row.obj⟩)]),
     mupd acc.2 (row.obj, row.depth) (fun l => setIns l row.subj))
  else
    (mget acc.2 (row.subj, row.depth - 1)).foldl
      (fun a s =>
        (mupd a.1 s (· ++ [(row.depth, ⟨row.subj, row.rel, row.obj⟩)]),
         mupd a.2 (row.obj, row.depth) (fun l => setIns l s)))
      acc

/-- The whole reconstruction pass over the depth-ordered row stream. -/
def processRows (rows : List CteRow) : RelMapD × RevMap :=
  rows.foldl relStep ([], [])

/-- Depth-instrumented rel-map produced by `get_rel_map` from a row stream. -/
def relMapDepth (rows : List CteRow) : RelMapD :=
  (processRows rows).1

/-- Forget the depth tags: this is exactly the `dict(rel_map)` value the
source returns. -/
def stripDepth (m : RelMapD) : List (String × List Trip) :=
  m.map (fun p => (p.1, p.2.map (·.2)))

/-! ### Simple store: the recursive query `rel_depth_query` (`base.py` 27-56) -/

/-- Name of the entity row an id joins to (`JOIN entities e ON p.x_id = e.id`;
ids are primary keys, so the first match is the row). -/
def entName (st : SimpleState) (i : Nat) : Option String :=
  (st.entities.find? (fun e => e.id == i)).map (·.name)

/-- Ids selected by `SELECT id FROM entities WHERE name IN :subjs`. -/
def seedIds (st : SimpleState) (subjs : List String) : List Nat :=
  (st.entities.filter (fun e => subjs.contains e.name)).map (·.id)

/-- Relation rows of the recursive CTE at a given depth: depth 1 seeds with
all relations whose subject id is a seed id; depth d+1 joins each depth-d
row's object id to relations having it as subject id (guarded by
`p.depth < :depth`, so only levels `1..depth` are ever produced). -/
def cteLevel (st : SimpleState) (subjs : List String) : Nat → List SRel
  | 0 => []
  | 1 => st.rels.filter (fun r => (seedIds st subjs).contains r.subject_id)
  | d + 2 =>
    (cteLevel st subjs (d + 1)).flatMap
      (fun p => st.rels.filter (fun r => r.subject_id == p.object_id))

/-- Result stream of `rel_depth_query`: levels `1..depth` concatenated in
depth order (`ORDER BY p.depth`), joined to entity names, capped by
`LIMIT :limit`. -/
def cteRows (st : SimpleState) (subjs : List String) (depth limit : Nat) : List CteRow :=
  ((List.range' 1 depth).flatMap (fun d =>
      (cteLevel st subjs d).filterMap (fun r =>
        match entName st r.subject_id, entName st r.object_id with
        | some a, some b => some ⟨d, a, r.description, b⟩
        | _, _ => none))).take limit

/-- The full `TiDBGraphStore.get_rel_map`, instrumented with the number of
queries issued to the backing store: the source calls `session.execute`
unconditionally, so the count is always 1. -/
def get_rel_map_run (st : SimpleState) (subjs : List String) (depth limit : Nat) :
    List (String × List Trip) × Nat :=
  (stripDepth (relMapDepth (cteRows st subjs depth limit)), 1)

/-- The mapping returned by `TiDBGraphStore.get_rel_map`. -/
def get_rel_map (st : SimpleState) (subjs : List String) (depth limit : Nat) :
    List (String × List Trip) :=
  (get_rel_map_run st subjs depth limit).1

/-! ### Stored-data paths (for the attribution claims) -/

/-- Does entity row `i` exist with name `n`? -/
def entNameB (st : SimpleState) (i : Nat) (n : String) : Bool :=
  st.entities.any (fun e => e.id == i && e.name == n)

/-- Is the triplet `(a, d, b)` present in the stored data (a relation row
between entity rows named `a` and `b` with description `d`)? -/
def edgeB (st : SimpleState) (a d b : String) : Bool :=
  st.rels.any (fun r =>
    r.description == d && entNameB st r.subject_id a && entNameB st r.object_id b)

/-- Is there a walk of exactly `k` relation-hops in the stored data from an
entity named `a` to an entity named `b`? -/
def walkB (st : SimpleState) : Nat → String → String → Bool
  | 0, a, b => a == b
  | k + 1, a, b =>
    st.rels.any (fun r =>
      entNameB st r.subject_id a &&
      st.entities.any (fun e => e.id == r.object_id && walkB st k e.name b))

/-- Soundness of one result row with respect to the stored data: the row's
triplet is a stored relation, its depth lies in `1..D`, and depth-1 rows
start at a seed — all guaranteed by the recursive query. -/
def rowSound (st : SimpleState) (seeds : List String) (D : Nat) (row : CteRow) : Prop :=
  edgeB st row.subj row.rel row.obj = true ∧ 1 ≤ row.depth ∧ row.depth ≤ D ∧
    (row.depth = 1 → row.subj ∈ seeds)

/-- Adjacent depths are non-decreasing. -/
def depthOrderedB : List CteRow → Bool
  | [] => true
  | [_] => true
  | a :: b :: t => decide (a.depth ≤ b.depth) && depthOrderedB (b :: t)

/-- Rows arrive in non-decreasing depth order (`ORDER BY p.depth`). -/
def rowsOrdered (rows : List CteRow) : Prop :=
  depthOrderedB rows = true

instance (st : SimpleState) (seeds : List String) (D : Nat) (row : CteRow) :
    Decidable (rowSound st seeds D row) :=
  inferInstanceAs (Decidable (edgeB st row.subj row.rel row.obj = true ∧
    1 ≤ row.depth ∧ row.depth ≤ D ∧ (row.depth = 1 → row.subj ∈ seeds)))

instance (rows : List CteRow) : Decidable (rowsOrdered rows) :=
  inferInstanceAs (Decidable (depthOrderedB rows = true))

/-! ### Simple store: `upsert_triplet` (`base.py` 121-132) -/

/-- Fresh auto-increment primary key for a table. -/
def freshId (l : List Nat) : Nat := l.foldr max 0 + 1

/-- The `get_or_create(session, entity_model, name=subj)` call of
`upsert_triplet`: first row with the given name, else a new row. -/
def get_or_create_entity (st : SimpleState) (n : String) :
    SEntity × Bool × SimpleState :=
  match st.entities.find? (fun e => e.name == n) with
  | some e => (e, false, st)
  | none =>
    let e : SEntity := ⟨freshId (st.entities.map (·.id)), n⟩
    (e, true, { st with entities := st.entities ++ [e] })

/-- The `get_or_create(session, rel_model, description=..., subject=...,
object=...)` call of `upsert_triplet`. -/
def get_or_create_srel (st : SimpleState) (d : String) (sid oid : Nat) :
    SRel × Bool × SimpleState :=
  match st.rels.find? (fun r =>
      r.description == d && r.subject_id == sid && r.object_id == oid) with
  | some r => (r, false, st)
  | none =>
    let r : SRel := ⟨freshId (st.rels.map (·.id)), d, sid, oid⟩
    (r, true, { st with rels := st.rels ++ [r] })

/-- `TiDBGraphStore.upsert_triplet`. -/
def upsert_triplet (st : SimpleState) (subj rel obj : String) : SimpleState :=
  let r1 := get_or_create_entity st subj
  let r2 := get_or_create_entity r1.2.2 obj
  (get_or_create_srel r2.2.2 rel r1.1.id r2.1.id).2.2

/-- The store holding the chain (A,"knows",B), (B,"knows",C), (C,"knows",D). -/
def chainState : SimpleState :=
  upsert_triplet
    (upsert_triplet (upsert_triplet ⟨[], []⟩ "A" "knows" "B") "B" "knows" "C")
    "C" "knows" "D"

/-- C2: on the stored chain (A,"knows",B), (B,"knows",C), (C,"knows",D),
`get_rel_map` with seeds `{A}` and depth 2 returns exactly
`{A: [[A,"knows",B],[B,"knows",C]]}` and with depth 1 exactly
`{A: [[A,"knows",B]]}`. -/
theorem c2_chain_rel_map :
    get_rel_map chainState ["A"] 2 30 =
      [("A", [⟨"A", "knows", "B"⟩, ⟨"B", "knows", "C"⟩])] ∧
    get_rel_map chainState ["A"] 1 30 =
      [("A", [⟨"A", "knows", "B"⟩])] := by
  decide

/-! ### C1: soundness of the single-pass attribution -/

theorem walkB_extend (st : SimpleState) (k : Nat) (s a b d : String)
    (hw : walkB st k s a = true) (he : edgeB st a d b = true) :
    walkB st (k + 1) s b = true := by
  induction k generalizing s with
  | zero =>
    have hs : s = a := by simpa [walkB] using hw
    subst hs
    simp only [edgeB, List.any_eq_true, Bool.and_eq_true] at he
    obtain ⟨r, hr, ⟨_, hsub⟩, hobj⟩ := he
    simp only [entNameB, List.any_eq_true, Bool.and_eq_true] at hobj
    obtain ⟨e, he2, hid, hnm⟩ := hobj
    simp only [walkB, List.any_eq_true, Bool.and_eq_true]
    exact ⟨r, hr, hsub, e, he2, hid, hnm⟩
  | succ n ih =>
    simp only [walkB, List.any_eq_true, Bool.and_eq_true] at hw
    obtain ⟨r, hr, hsub, e, he2, hid, hwk⟩ := hw
    have hnext := ih e.name hwk
    simp only [walkB, List.any_eq_true, Bool.and_eq_true] at hnext ⊢
    exact ⟨r, hr, hsub, e, he2, hid, hnext⟩

/-- Invariant of the (depth-instrumented) rel-map being built: every entry
`(k, t)` under key `s` is attributed to a genuine seed, with a stored walk
of exactly `k - 1` hops from `s` to the triplet's subject, the triplet
itself being a stored relation, and `1 ≤ k ≤ D`. -/
def relInv (st : SimpleState) (seeds : List String) (D : Nat) (m : RelMapD) : Prop :=
  ∀ s k t, (k, t) ∈ mget m s →
    s ∈ seeds ∧ 1 ≤ k ∧ k ≤ D ∧ walkB st (k - 1) s t.subj = true ∧
      edgeB st t.subj t.rel t.obj = true

/-- Invariant of the reverse index: `s ∈ obj_reverse_map[(x, d)]` only when
`s` is a seed with a stored walk of exactly `d` hops from `s` to `x`. -/
def revInv (st : SimpleState) (seeds : List String) (D : Nat) (rv : RevMap) : Prop :=
  ∀ x d s, s ∈ mget rv (x, d) →
    s ∈ seeds ∧ 1 ≤ d ∧ d ≤ D ∧ walkB st d s x = true

theorem relPush_inv (st : SimpleState) (seeds : List String) (D : Nat)
    (row : CteRow) (s0 : String)
    (hedge : edgeB st row.subj row.rel row.obj = true)
    (hd1 : 1 ≤ row.depth) (hdD : row.depth ≤ D)
    (hs0 : s0 ∈ seeds) (hwalk : walkB st (row.depth - 1) s0 row.subj = true)
    (acc : RelMapD × RevMap)
    (h1 : relInv st seeds D acc.1) (h2 : revInv st seeds D acc.2) :
    relInv st seeds D
        (mupd acc.1 s0 (· ++ [(row.depth, ⟨row.subj, row.rel, row.obj⟩)])) ∧
      revInv st seeds D
        (mupd acc.2 (row.obj, row.depth) (fun l => setIns l s0)) := by
  constructor
  · intro s k t hmem
    rw [mget_mupd] at hmem
    by_cases hs : s = s0
    · subst hs
      rw [if_pos rfl] at hmem
      rcases List.mem_append.mp hmem with hold | hnew
      · exact h1 s k t hold
      · have hk : k = row.depth ∧ t = ⟨row.subj, row.rel, row.obj⟩ := by
          have := List.mem_singleton.mp hnew
          exact ⟨congrArg Prod.fst this, congrArg Prod.snd this⟩
        obtain ⟨rfl, rfl⟩ := hk
        exact ⟨hs0, hd1, hdD, hwalk, hedge⟩
    · rw [if_neg hs] at hmem
      exact h1 s k t hmem
  · intro x d s hmem
    rw [mget_mupd] at hmem
    by_cases hk : (x, d) = (row.obj, row.depth)
    · have hx : x = row.obj := congrArg Prod.fst hk
      have hd : d = row.depth := congrArg Prod.snd hk
      subst hx; subst hd
      rw [if_pos rfl] at hmem
      rcases (mem_setIns _ _ _).mp hmem with hold | rfl
      · exact h2 row.obj row.depth s hold
      · refine ⟨hs0, hd1, hdD, ?_⟩
        have := walkB_extend st (row.depth - 1) s row.subj row.obj row.rel
          hwalk hedge
        rwa [Nat.sub_add_cancel hd1] at this
    · rw [if_neg hk] at hmem
      exact h2 x d s hmem

theorem relFold_inv (st : SimpleState) (seeds : List String) (D : Nat)
    (row : CteRow)
    (hedge : edgeB st row.subj row.rel row.obj = true)
    (hd1 : 1 ≤ row.depth) (hdD : row.depth ≤ D) :
    ∀ (lst : List String) (acc : RelMapD × RevMap),
      (∀ s0 ∈ lst, s0 ∈ seeds ∧ walkB st (row.depth - 1) s0 row.subj = true) →
      relInv st seeds D acc.1 → revInv st seeds D acc.2 →
      relInv st seeds D
          ((lst.foldl (fun a s =>
            (mupd a.1 s (· ++ [(row.depth, ⟨row.subj, row.rel, row.obj⟩)]),
             mupd a.2 (row.obj, row.depth) (fun l => setIns l s))) acc).1) ∧
        revInv st seeds D
          ((lst.foldl (fun a s =>
            (mupd a.1 s (· ++ [(row.depth, ⟨row.subj, row.rel, row.obj⟩)]),
             mupd a.2 (row.obj, row.depth) (fun l => setIns l s))) acc).2) := by
  intro lst
  induction lst with
  | nil => intro acc _ h1 h2; exact ⟨h1, h2⟩
  | cons s0 rest ih =>
    intro acc hall h1 h2
    obtain ⟨hs0, hwalk⟩ := hall s0 (List.mem_cons_self s0 rest)
    have hstep := relPush_inv st seeds D row s0 hedge hd1 hdD hs0 hwalk acc h1 h2
    exact ih _ (fun s hs => hall s (List.mem_cons_of_mem s0 hs)) hstep.1 hstep.2

theorem relStep_inv (st : SimpleState) (seeds : List String) (D : Nat)
    (row : CteRow) (hrow : rowSound st seeds D row)
    (acc : RelMapD × RevMap)
    (h1 : relInv st seeds D acc.1) (h2 : revInv st seeds D acc.2) :
    relInv st seeds D (relStep acc row).1 ∧
      revInv st seeds D (relStep acc row).2 := by
  obtain ⟨hedge, hd1, hdD, hseed⟩ := hrow
  by_cases hdep : row.depth = 1
  · simp only [relStep, if_pos hdep]
    have hwalk : walkB st (row.depth - 1) row.subj row.subj = true := by
      rw [hdep]; simp [walkB]
    exact relPush_inv st seeds D row row.subj hedge hd1 hdD (hseed hdep) hwalk
      acc h1 h2
  · simp only [relStep, if_neg hdep]
    refine relFold_inv st seeds D row hedge hd1 hdD _ acc ?_ h1 h2
    intro s0 hs0
    have := h2 row.subj (row.depth - 1) s0 hs0
    exact ⟨this.1, this.2.2.2⟩

theorem processRows_inv (st : SimpleState) (seeds : List String) (D : Nat) :
    ∀ (rows : List CteRow) (acc : RelMapD × RevMap),
      (∀ row ∈ rows, rowSound st seeds D row) →
      relInv st seeds D acc.1 → revInv st seeds D acc.2 →
      relInv st seeds D (rows.foldl relStep acc).1 ∧
        revInv st seeds D (rows.foldl relStep acc).2 := by
  intro rows
  induction rows with
  | nil => intro acc _ h1 h2; exact ⟨h1, h2⟩
  | cons row rest ih =>
    intro acc hall h1 h2
    have hstep := relStep_inv st seeds D row (hall row (List.mem_cons_self row rest))
      acc h1 h2
    exact ih _ (fun r hr => hall r (List.mem_cons_of_mem row hr)) hstep.1 hstep.2

/-- C1 (amended): under the precondition that the rows of the recursive
query are sound for the stored data and processed in non-decreasing depth
order, every triplet that `get_rel_map` places under a seed `s` at hop `k`
is attributed to a genuine seed via a valid path of exactly `k - 1`
relation-hops from `s` to the triplet's subject (so the attribution path,
whose final hop is the stored triplet itself, has exactly `k` hops), and
no attribution path is longer than `D`. The claim as frozen asserts a path
of exactly `k` hops from `s` to the triplet's subject, which fails already
at depth 1 (see the counterexample). -/
theorem c1_attribution_sound (st : SimpleState) (seeds : List String) (D : Nat)
    (rows : List CteRow)
    (hrows : ∀ row ∈ rows, rowSound st seeds D row)
    (_hord : rowsOrdered rows) :
    ∀ s k t, (k, t) ∈ mget (relMapDepth rows) s →
      s ∈ seeds ∧ 1 ≤ k ∧ k ≤ D ∧ walkB st (k - 1) s t.subj = true ∧
        edgeB st t.subj t.rel t.obj = true := by
  have h := processRows_inv st seeds D rows ([], []) hrows
    (fun s k t hmem => absurd hmem (by simp [mget]))
    (fun x d s hmem => absurd hmem (by simp [mget]))
  exact h.1

/-- Store with the single stored triplet (A,"r",B). -/
def c1ExState : SimpleState := ⟨[⟨1, "A"⟩, ⟨2, "B"⟩], [⟨1, "r", 1, 2⟩]⟩

/-- The recursive query's rows for seed A at depth 1 on `c1ExState`. -/
def c1ExRows : List CteRow := [⟨1, "A", "r", "B"⟩]

/-- C1 counterexample: on the store with single triplet (A,"r",B) and the
(sound, depth-ordered) depth-1 row stream, `get_rel_map` places the triplet
under seed A at hop 1, but the stored data has no path of exactly 1
relation-hop from A to the triplet's subject A — refuting the claim as
stated, which demands a path of exactly `k` hops from the seed to the
triplet's subject. -/
theorem c1_counterexample :
    (∀ row ∈ c1ExRows, rowSound c1ExState ["A"] 1 row) ∧
    rowsOrdered c1ExRows ∧
    (1, (⟨"A", "r", "B"⟩ : Trip)) ∈ mget (relMapDepth c1ExRows) "A" ∧
    walkB c1ExState 1 "A" "A" = false := by
  decide

/-- Witness for `c1_attribution_sound` at the concrete input `c1ExState`,
`c1ExRows`, seed A, hop 1. -/
theorem c1_attribution_sound_witness :
    "A" ∈ ["A"] ∧ 1 ≤ 1 ∧ 1 ≤ 1 ∧
      walkB c1ExState 0 "A" "A" = true ∧
      edgeB c1ExState "A" "r" "B" = true :=
  c1_attribution_sound c1ExState ["A"] 1 c1ExRows (by decide) (by decide)
    "A" 1 ⟨"A", "r", "B"⟩ (by decide)

/-! ### Simple store: `delete` (`base.py` 185-221) -/

/-- The predicate of the `delete` statement: subject entity named `subj`,
description `rel`, object entity named `obj` (the `has(name=...)`
correlated sub-queries run against the entities table). -/
def delMatch (st : SimpleState) (subj rel obj : String) (r : SRel) : Bool :=
  entNameB st r.subject_id subj && (r.description == rel) &&
    entNameB st r.object_id obj

/-- Does the relation row reference an entity named `n` in either direction
(the `subject.has(name=n) | object.has(name=n)` filter)? -/
def refersTo (st : SimpleState) (r : SRel) (n : String) : Bool :=
  entNameB st r.subject_id n || entNameB st r.object_id n

/-- The `entity_was_referenced` helper: its query ends in `one_or_none()`,
which returns `None` for no match and the row for exactly one match, but
raises `MultipleResultsFound` when two or more relations still reference
the entity. -/
def entity_was_referenced (st : SimpleState) (n : String) :
    Except String (Option SRel) :=
  match st.rels.filter (fun r => refersTo st r n) with
  | [] => .ok none
  | [r] => .ok (some r)
  | _ => .error "MultipleResultsFound"

/-- The `delete_entity` helper: deletes the entity rows with the given name. -/
def delete_entity (st : SimpleState) (n : String) : SimpleState :=
  { st with entities := st.entities.filter (fun e => !(e.name == n)) }

/-- Outcome of `TiDBGraphStore.delete`: the exception it raised, if any, and
the contents committed to the backing store when the call returned or the
exception propagated (each phase commits separately, so deletions performed
before a raise persist). -/
structure DelResult where
  err : Option String
  state : SimpleState
  deriving DecidableEq, Repr

/-- `TiDBGraphStore.delete` (named `delete_triplet` in the public operation
surface): delete the matching relation rows; if none matched, stop;
otherwise for each of subject and object delete the entity when
`entity_was_referenced` finds no referencing relation. -/
def delete_triplet (st : SimpleState) (subj rel obj : String) : DelResult :=
  let matched := st.rels.filter (delMatch st subj rel obj)
  if matched.length = 0 then ⟨none, st⟩
  else
    let st1 : SimpleState :=
      { st with rels := st.rels.filter (fun r => !(delMatch st subj rel obj r)) }
    match entity_was_referenced st1 subj with
    | .error e => ⟨some e, st1⟩
    | .ok r1 =>
      let st2 := if r1.isNone then delete_entity st1 subj else st1
      match entity_was_referenced st2 obj with
      | .error e => ⟨some e, st2⟩
      | .ok r2 => ⟨none, if r2.isNone then delete_entity st2 obj else st2⟩

/-- Entities A, B, C with relations (A,"d1",B), (A,"d2",C), (A,"d3",C). -/
def c3ExState : SimpleState :=
  ⟨[⟨1, "A"⟩, ⟨2, "B"⟩, ⟨3, "C"⟩],
   [⟨1, "d1", 1, 2⟩, ⟨2, "d2", 1, 3⟩, ⟨3, "d3", 1, 3⟩]⟩

/-- C3: deleting (A,"d1",B) from `c3ExState` removes the relation row, but
then `entity_was_referenced("A")` finds the two remaining relations that
reference A and its `one_or_none()` raises `MultipleResultsFound`; the
call aborts with B's entity row still present even though no remaining
relation references B — contradicting the claimed orphan cleanup, which
says B's entity row is removed exactly when nothing references it. -/
theorem c3_delete_raises :
    delete_triplet c3ExState "A" "d1" "B" =
      ⟨some "MultipleResultsFound",
       ⟨[⟨1, "A"⟩, ⟨2, "B"⟩, ⟨3, "C"⟩], [⟨2, "d2", 1, 3⟩, ⟨3, "d3", 1, 3⟩]⟩⟩ ∧
    (delete_triplet c3ExState "A" "d1" "B").state.rels.all
      (fun r => !(refersTo (delete_triplet c3ExState "A" "d1" "B").state r "B"))
      = true := by
  decide

/-! ### `get_or_create` (`base.py` 251-261) -/

/-- A row of an arbitrary model: a mapping from field names to values
(first binding wins, as in a Python dict). -/
abbrev Row := List (String × String)

/-- Value of a field of a row. -/
def fieldVal (r : Row) (k : String) : Option String := r.lookup k

/-- `session.query(model).filter_by(**kwargs)`: every keyword equality holds. -/
def rowMatches (kwargs : Row) (r : Row) : Bool :=
  kwargs.all (fun kv => fieldVal r kv.1 == some kv.2)

/-- Python `kwargs.update(defaults)`: entries of `defaults` overwrite
same-key entries of `kwargs` in place and the remaining ones are appended. -/
def dictUpdate (kwargs dflts : Row) : Row :=
  kwargs.map (fun kv => (kv.1, (fieldVal dflts kv.1).getD kv.2)) ++
    dflts.filter (fun kv => (fieldVal kwargs kv.1).isNone)

/-- Fields of the row `model(**kwargs)` creates: `kwargs`, updated by
`defaults` when such were given. -/
def newRowOf (defaults : Option Row) (kwargs : Row) : Row :=
  match defaults with
  | some d => dictUpdate kwargs d
  | none => kwargs

/-- `get_or_create(session, model, defaults, **kwargs)` over the model's
table: the first matching row with a `False` created-flag, else a newly
inserted row with a `True` flag. Returns `((instance, created), table)`. -/
def get_or_create (tbl : List Row) (defaults : Option Row) (kwargs : Row) :
    (Row × Bool) × List Row :=
  match tbl.find? (rowMatches kwargs) with
  | some r => ((r, false), tbl)
  | none =>
    let newRow := newRowOf defaults kwargs
    ((newRow, true), tbl ++ [newRow])

/-- C4 counterexample: with filter field `name="y"` and defaults
`name="x"`, the created row does not match the filter, so a second
identical call creates a second row and reports `created = true` — two
rows in total, refuting the claim as stated. -/
theorem c4_counterexample :
    (get_or_create
        (get_or_create [] (some [("name", "x")]) [("name", "y")]).2
        (some [("name", "x")]) [("name", "y")]).2.length = 2 ∧
    (get_or_create
        (get_or_create [] (some [("name", "x")]) [("name", "y")]).2
        (some [("name", "x")]) [("name", "y")]).1.2 = true := by
  decide

theorem lookup_of_mem_nodup {l : Row} {k v : String}
    (hmem : (k, v) ∈ l) (hnd : (l.map Prod.fst).Nodup) :
    l.lookup k = some v := by
  induction l with
  | nil => cases hmem
  | cons p t ih =>
    rcases List.mem_cons.mp hmem with rfl | hmem2
    · simp [List.lookup]
    · have hk : p.1 ≠ k := by
        intro hc
        have : k ∈ t.map Prod.fst := List.mem_map.mpr ⟨(k, v), hmem2, rfl⟩
        rw [List.map_cons] at hnd
        exact (List.nodup_cons.mp hnd).1 (hc ▸ this)
      have hne : (k == p.1) = false := by
        exact beq_eq_false_iff_ne.mpr (fun hc => hk hc.symm)
      rw [List.map_cons] at hnd
      simp only [List.lookup, hne]
      exact ih hmem2 (List.nodup_cons.mp hnd).2

theorem lookup_append_left {l1 : Row} (l2 : Row) {k : String} {v : String}
    (h : l1.lookup k = some v) : (l1 ++ l2).lookup k = some v := by
  induction l1 with
  | nil => simp [List.lookup] at h
  | cons p t ih =>
    by_cases hk : (k == p.1) = true
    · simp only [List.lookup, hk] at h ⊢
      exact h
    · have hk2 : (k == p.1) = false := by
        cases hkp : (k == p.1) with
        | true => exact absurd hkp hk
        | false => rfl
      simp only [List.cons_append, List.lookup, hk2] at h ⊢
      exact ih h

/-- The row created by `get_or_create` matches the filter, provided the
filter keys are distinct and no default overrides a filter field with a
different value. -/
theorem rowMatches_newRowOf (defaults : Option Row) (kwargs : Row)
    (hdfl : ∀ kv ∈ kwargs, fieldVal (defaults.getD []) kv.1 = none ∨
      fieldVal (defaults.getD []) kv.1 = some kv.2)
    (hkeys : (kwargs.map Prod.fst).Nodup) :
    rowMatches kwargs (newRowOf defaults kwargs) = true := by
  rw [rowMatches, List.all_eq_true]
  intro kv hkv
  rw [beq_iff_eq]
  match defaults with
  | none =>
    simpa [newRowOf, fieldVal] using lookup_of_mem_nodup hkv hkeys
  | some d =>
    have hmap : (kv.1, (fieldVal d kv.1).getD kv.2) ∈
        kwargs.map (fun kv => (kv.1, (fieldVal d kv.1).getD kv.2)) :=
      List.mem_map.mpr ⟨kv, hkv, rfl⟩
    have hnd2 : ((kwargs.map
        (fun kv => (kv.1, (fieldVal d kv.1).getD kv.2))).map Prod.fst).Nodup := by
      rw [List.map_map]
      exact hkeys
    have hlk := lookup_of_mem_nodup hmap hnd2
    have hfv : fieldVal (newRowOf (some d) kwargs) kv.1 =
        some ((fieldVal d kv.1).getD kv.2) := by
      simpa [fieldVal, newRowOf, dictUpdate] using
        lookup_append_left
          (d.filter (fun kv => (fieldVal kwargs kv.1).isNone)) hlk
    rcases hdfl kv hkv with h | h <;>
      simp only [Option.getD_some] at h <;> simp [hfv, h]

theorem find?_append_new (kwargs nr : Row)
    (hmatch : rowMatches kwargs nr = true) :
    ∀ tbl : List Row, (∀ r ∈ tbl, rowMatches kwargs r = false) →
      (tbl ++ [nr]).find? (rowMatches kwargs) = some nr := by
  intro tbl
  induction tbl with
  | nil => intro _; simp [List.find?, hmatch]
  | cons r t ih =>
    intro hall
    have hr := hall r (List.mem_cons_self r t)
    simp only [List.cons_append, List.find?, hr]
    exact ih (fun x hx => hall x (List.mem_cons_of_mem r hx))

/-- C4 (amended): starting from a table with no row matching the filter
fields, and with defaults (if any) not overriding a filter field with a
different value, two successive `get_or_create` calls with identical
filter fields create exactly one row: the first call inserts it and
returns it with `created = true`, the second returns the same row
unchanged with `created = false` and inserts nothing. -/
theorem c4_get_or_create_idempotent (tbl : List Row) (defaults : Option Row)
    (kwargs : Row)
    (hnone : ∀ r ∈ tbl, rowMatches kwargs r = false)
    (hdfl : ∀ kv ∈ kwargs, fieldVal (defaults.getD []) kv.1 = none ∨
      fieldVal (defaults.getD []) kv.1 = some kv.2)
    (hkeys : (kwargs.map Prod.fst).Nodup) :
    (get_or_create tbl defaults kwargs).1.2 = true ∧
    (get_or_create tbl defaults kwargs).2 =
      tbl ++ [(get_or_create tbl defaults kwargs).1.1] ∧
    (get_or_create (get_or_create tbl defaults kwargs).2 defaults kwargs).1.1 =
      (get_or_create tbl defaults kwargs).1.1 ∧
    (get_or_create (get_or_create tbl defaults kwargs).2 defaults kwargs).1.2 =
      false ∧
    (get_or_create (get_or_create tbl defaults kwargs).2 defaults kwargs).2 =
      (get_or_create tbl defaults kwargs).2 := by
  have hfind : tbl.find? (rowMatches kwargs) = none :=
    List.find?_eq_none.mpr (fun r hr => by rw [hnone r hr]; exact Bool.false_ne_true)
  have hmatch := rowMatches_newRowOf defaults kwargs hdfl hkeys
  have hfind2 := find?_append_new kwargs (newRowOf defaults kwargs) hmatch tbl hnone
  constructor
  · simp [get_or_create, hfind]
  constructor
  · simp [get_or_create, hfind]
  refine ⟨?_, ?_, ?_⟩ <;>
    simp [get_or_create, hfind, hfind2]

/-- Witness for `c4_get_or_create_idempotent` on the empty table with
filter `name="a"` and no defaults. -/
theorem c4_get_or_create_idempotent_witness :
    (get_or_create [] none [("name", "a")]).1.2 = true ∧
    (get_or_create [] none [("name", "a")]).2 =
      [] ++ [(get_or_create [] none [("name", "a")]).1.1] ∧
    (get_or_create (get_or_create [] none [("name", "a")]).2 none
      [("name", "a")]).1.1 = (get_or_create [] none [("name", "a")]).1.1 ∧
    (get_or_create (get_or_create [] none [("name", "a")]).2 none
      [("name", "a")]).1.2 = false ∧
    (get_or_create (get_or_create [] none [("name", "a")]).2 none
      [("name", "a")]).2 = (get_or_create [] none [("name", "a")]).2 :=
  c4_get_or_create_idempotent [] none [("name", "a")]
    (by intro r hr; cases hr) (by decide) (by decide)

/-! ### Property graph store (`property_graph.py`): schema -/

/-- Row of the `pkg_nodes` table. The JSON properties column is held
structurally (its (de)serialization is a backing-store concern); the
nullable vector column `embedding` holds the stored numeric vector. -/
structure PNode where
  id : String
  text : Option String
  name : Option String
  label : String
  properties : List (String × String)
  embedding : Option (List ℚ)
  deriving DecidableEq, Repr

/-- Row of the `pkg_relations` table. -/
structure PRel where
  id : Nat
  label : String
  source_id : String
  target_id : String
  properties : List (String × String)
  deriving DecidableEq, Repr

/-- Contents of the property store's two tables. -/
structure PState where
  nodes : List PNode
  prels : List PRel
  deriving DecidableEq, Repr

/-- Input value of `upsert_relations`: a `Relation` of the host framework's
data contract. -/
structure Relation where
  label : String
  source_id : String
  target_id : String
  properties : List (String × String)
  deriving DecidableEq, Repr

/-- Modelled from the spec: `remove_empty_values` of the `utils` module
(module absent from the sources; the spec says it drops keys whose value is
null/empty from a properties mapping before returning it to callers). -/
def remove_empty_values (props : List (String × String)) :
    List (String × String) :=
  props.filter (fun kv => !(kv.2 == ""))

/-! ### Property store: `upsert_relations` (`property_graph.py` 331-357) -/

/-- The `get_or_create(session, node_model, id=i)` call (the shared helper
has the same body as `base.py`'s `get_or_create`): a missing node is
created as a bare placeholder row carrying only the id and the column
defaults `label="node"`, empty properties, null name/text/embedding. -/
def get_or_create_pnode (st : PState) (i : String) : PNode × Bool × PState :=
  match st.nodes.find? (fun n => n.id == i) with
  | some n => (n, false, st)
  | none =>
    let n : PNode := ⟨i, none, none, "node", [], none⟩
    (n, true, { st with nodes := st.nodes ++ [n] })

/-- Does the relation row carry the given (label, source_id, target_id)
key? -/
def keyB (lbl src tgt : String) (row : PRel) : Bool :=
  row.label == lbl && row.source_id == src && row.target_id == tgt

/-- The `get_or_create(session, relation_model, label=..., source_id=...,
target_id=...)` call of `upsert_relations`. -/
def get_or_create_prel (st : PState) (lbl src tgt : String) :
    PRel × Bool × PState :=
  match st.prels.find? (keyB lbl src tgt) with
  | some r => (r, false, st)
  | none =>
    let r : PRel := ⟨freshId (st.prels.map (·.id)), lbl, src, tgt, []⟩
    (r, true, { st with prels := st.prels ++ [r] })

/-- Overwrite the properties of the first relation row carrying the given
key (the `relation_instance.properties = r.properties` mutation). -/
def setRelProps (l : List PRel) (lbl src tgt : String)
    (props : List (String × String)) : List PRel :=
  match l with
  | [] => []
  | r :: t =>
    if keyB lbl src tgt r then { r with properties := props } :: t
    else r :: setRelProps t lbl src tgt props

/-- One iteration of the `for r in relations` loop of `upsert_relations`:
get-or-create both endpoint nodes, get-or-create the relation row by its
(label, source_id, target_id) key, overwrite its properties, and commit. -/
def upsertRelStep (st : PState) (r : Relation) : PState :=
  let s1 := (get_or_create_pnode st r.source_id).2.2
  let s2 := (get_or_create_pnode s1 r.target_id).2.2
  let s3 := (get_or_create_prel s2 r.label r.source_id r.target_id).2.2
  { s3 with
    prels := setRelProps s3.prels r.label r.source_id r.target_id r.properties }

/-- `TiDBPropertyGraphStore.upsert_relations`. -/
def upsert_relations (st : PState) (relations : List Relation) : PState :=
  relations.foldl upsertRelStep st

/-- Committed table contents after each loop iteration of
`upsert_relations`: every iteration ends with `session.commit()`, so its
effects are durable before the next relation is processed. -/
def upsert_relations_commits (st : PState) (relations : List Relation) :
    List PState :=
  (relations.foldl
    (fun a r => (a.1 ++ [upsertRelStep a.2 r], upsertRelStep a.2 r))
    ([], st)).1

/-- Contents persisted when processing of the relation at (0-based) index
`i` fails at its start: everything the first `i` completed iterations
committed (the failing iteration's uncommitted work is rolled back when
the session closes). -/
def upsert_relations_failing_at (st : PState) (relations : List Relation)
    (i : Nat) : PState :=
  upsert_relations st (relations.take i)

/-- Does a node row with the given id exist? -/
def nodeIdExists (st : PState) (i : String) : Bool :=
  st.nodes.any (fun n => n.id == i)

/-- Referential integrity of the relation table: every relation row's
source and target ids reference existing node rows. -/
def integrityB (st : PState) : Bool :=
  st.prels.all (fun r => nodeIdExists st r.source_id && nodeIdExists st r.target_id)

/-- First relation row carrying the given key. -/
def firstRelWithKey (l : List PRel) (lbl src tgt : String) : Option PRel :=
  l.find? (keyB lbl src tgt)

/-! ### Property store: `delete` (`property_graph.py` 359-370) -/

/-- `TiDBPropertyGraphStore.delete`: the body only prints its arguments
and carries a TODO; no statement ever reaches the backing store, so the
stored contents are returned unchanged. -/
def pg_delete (entity_names relation_names : List String)
    (properties : List (String × String)) (ids : List String)
    (st : PState) : PState :=
  st

/-- C9: for every combination of arguments and every stored state, the
property store's `delete` leaves the node table and the relation table
completely unchanged — it is a no-op. -/
theorem c9_pg_delete_noop (entity_names relation_names : List String)
    (properties : List (String × String)) (ids : List String) (st : PState) :
    pg_delete entity_names relation_names properties ids st = st :=
  rfl

/-! ### C5/C10: lemmas about `upsert_relations` -/

theorem prels_goc_pnode (st : PState) (i : String) :
    (get_or_create_pnode st i).2.2.prels = st.prels := by
  rcases h : st.nodes.find? (fun n => n.id == i) with _ | n <;>
    simp [get_or_create_pnode, h]

theorem nodes_goc_prel (st : PState) (lbl src tgt : String) :
    (get_or_create_prel st lbl src tgt).2.2.nodes = st.nodes := by
  rcases h : st.prels.find? (keyB lbl src tgt) with _ | r <;>
    simp [get_or_create_prel, h]

theorem nodeIdExists_goc_mono (st : PState) (i j : String)
    (h : nodeIdExists st j = true) :
    nodeIdExists (get_or_create_pnode st i).2.2 j = true := by
  rcases hf : st.nodes.find? (fun n => n.id == i) with _ | n
  · simp only [get_or_create_pnode, hf]
    simp only [nodeIdExists, List.any_append, Bool.or_eq_true] at h ⊢
    exact Or.inl h
  · simp only [get_or_create_pnode, hf]
    exact h

theorem nodeIdExists_goc_self (st : PState) (i : String) :
    nodeIdExists (get_or_create_pnode st i).2.2 i = true := by
  rcases hf : st.nodes.find? (fun n => n.id == i) with _ | n
  · simp [get_or_create_pnode, hf, nodeIdExists]
  · have hmem := List.mem_of_find?_eq_some hf
    have hp := List.find?_some hf
    simp only [get_or_create_pnode, hf, nodeIdExists, List.any_eq_true]
    exact ⟨n, hmem, hp⟩

theorem length_setRelProps (l : List PRel) (lbl src tgt : String)
    (props : List (String × String)) :
    (setRelProps l lbl src tgt props).length = l.length := by
  induction l with
  | nil => rfl
  | cons r t ih =>
    by_cases h : keyB lbl src tgt r = true <;>
      simp [setRelProps, h, ih]

theorem mem_setRelProps {l : List PRel} {lbl src tgt : String}
    {props : List (String × String)} {row : PRel}
    (h : row ∈ setRelProps l lbl src tgt props) :
    ∃ row0 ∈ l, row.label = row0.label ∧ row.source_id = row0.source_id ∧
      row.target_id = row0.target_id := by
  induction l with
  | nil => cases h
  | cons r t ih =>
    by_cases hk : keyB lbl src tgt r = true
    · rw [setRelProps, if_pos hk] at h
      rcases List.mem_cons.mp h with rfl | hmem
      · exact ⟨r, List.mem_cons_self r t, rfl, rfl, rfl⟩
      · exact ⟨row, List.mem_cons_of_mem r hmem, rfl, rfl, rfl⟩
    · rw [setRelProps, if_neg hk] at h
      rcases List.mem_cons.mp h with rfl | hmem
      · exact ⟨row, List.mem_cons_self row t, rfl, rfl, rfl⟩
      · obtain ⟨row0, hmem0, heq⟩ := ih hmem
        exact ⟨row0, List.mem_cons_of_mem r hmem0, heq⟩

theorem any_setRelProps {l : List PRel} {lbl src tgt : String}
    {props : List (String × String)} (p : PRel → Bool)
    (hp : ∀ row pr, p ({ row with properties := pr }) = p row)
    (h : l.any p = true) :
    (setRelProps l lbl src tgt props).any p = true := by
  induction l with
  | nil => cases h
  | cons r t ih =>
    rw [List.any_cons, Bool.or_eq_true] at h
    rcases h with hr | ht
    · by_cases hk : keyB lbl src tgt r = true
      · rw [setRelProps, if_pos hk, List.any_cons, hp r props, hr]
        rfl
      · rw [setRelProps, if_neg hk, List.any_cons, hr]
        rfl
    · by_cases hk : keyB lbl src tgt r = true
      · rw [setRelProps, if_pos hk, List.any_cons, ht]
        simp
      · rw [setRelProps, if_neg hk, List.any_cons, ih ht]
        simp

theorem keyB_props (lbl src tgt : String) (row : PRel)
    (pr : List (String × String)) :
    keyB lbl src tgt ({ row with properties := pr }) = keyB lbl src tgt row := by
  rfl

theorem exists_find?_of_any {α : Type} (l : List α) (p : α → Bool)
    (h : l.any p = true) : ∃ x, l.find? p = some x := by
  induction l with
  | nil => cases h
  | cons a t ih =>
    by_cases ha : p a = true
    · exact ⟨a, List.find?_cons_of_pos t ha⟩
    · have ht : t.any p = true := by
        rw [List.any_cons, Bool.or_eq_true] at h
        rcases h with h1 | h2
        · exact absurd h1 ha
        · exact h2
      obtain ⟨x, hx⟩ := ih ht
      exact ⟨x, by rw [List.find?_cons_of_neg t (by simp [ha]), hx]⟩

theorem goc_prel_found (st : PState) (lbl src tgt : String)
    (h : st.prels.any (keyB lbl src tgt) = true) :
    (get_or_create_prel st lbl src tgt).2.2 = st := by
  obtain ⟨x, hx⟩ := exists_find?_of_any _ _ h
  simp [get_or_create_prel, hx]

theorem firstRelWithKey_setRelProps (l : List PRel) (lbl src tgt : String)
    (props : List (String × String)) (h : l.any (keyB lbl src tgt) = true) :
    (firstRelWithKey (setRelProps l lbl src tgt props) lbl src tgt).map
      (·.properties) = some props := by
  induction l with
  | nil => cases h
  | cons r t ih =>
    by_cases hk : keyB lbl src tgt r = true
    · have hk2 : keyB lbl src tgt ({ r with properties := props }) = true := hk
      simp only [firstRelWithKey]
      rw [setRelProps, if_pos hk, List.find?_cons_of_pos _ hk2]
      rfl
    · have ht : t.any (keyB lbl src tgt) = true := by
        rw [List.any_cons, Bool.or_eq_true] at h
        rcases h with h1 | h2
        · exact absurd h1 hk
        · exact h2
      have hres := ih ht
      simp only [firstRelWithKey] at hres ⊢
      rw [setRelProps, if_neg hk, List.find?_cons_of_neg _ hk]
      exact hres

/-! ### C5/C10: step and fold facts -/

theorem step_nodes_mono (st : PState) (r : Relation) (j : String)
    (h : nodeIdExists st j = true) :
    nodeIdExists (upsertRelStep st r) j = true := by
  have h1 := nodeIdExists_goc_mono st r.source_id j h
  have h2 := nodeIdExists_goc_mono _ r.target_id j h1
  have h3 : nodeIdExists
      (get_or_create_prel ((get_or_create_pnode
        ((get_or_create_pnode st r.source_id).2.2) r.target_id).2.2)
        r.label r.source_id r.target_id).2.2 j = true := by
    rw [nodeIdExists] at h2 ⊢
    rw [nodes_goc_prel]
    exact h2
  rw [upsertRelStep]
  rw [nodeIdExists] at h3 ⊢
  exact h3

theorem step_endpoint_src (st : PState) (r : Relation) :
    nodeIdExists (upsertRelStep st r) r.source_id = true := by
  have h1 := nodeIdExists_goc_self st r.source_id
  have h2 := nodeIdExists_goc_mono _ r.target_id _ h1
  rw [upsertRelStep]
  rw [nodeIdExists] at h2 ⊢
  rw [nodes_goc_prel]
  exact h2

theorem step_endpoint_tgt (st : PState) (r : Relation) :
    nodeIdExists (upsertRelStep st r) r.target_id = true := by
  have h2 := nodeIdExists_goc_self
    ((get_or_create_pnode st r.source_id).2.2) r.target_id
  rw [upsertRelStep]
  rw [nodeIdExists] at h2 ⊢
  rw [nodes_goc_prel]
  exact h2

/-- The relation table after `get_or_create` of a relation key: either the
key was found (table unchanged) or it was absent and a fresh bare row with
that key is appended. -/
theorem goc_prel_prels (st : PState) (lbl src tgt : String) :
    (((get_or_create_prel st lbl src tgt).2.2).prels = st.prels ∧
      st.prels.any (keyB lbl src tgt) = true) ∨
    (st.prels.any (keyB lbl src tgt) = false ∧
      ((get_or_create_prel st lbl src tgt).2.2).prels =
        st.prels ++ [⟨freshId (st.prels.map (·.id)), lbl, src, tgt, []⟩]) := by
  rcases hf : st.prels.find? (keyB lbl src tgt) with _ | x
  · right
    refine ⟨?_, by simp [get_or_create_prel, hf]⟩
    rcases hany : st.prels.any (keyB lbl src tgt) with _ | _
    · rfl
    · obtain ⟨y, hy⟩ := exists_find?_of_any _ _ hany
      rw [hf] at hy
      cases hy
  · left
    refine ⟨by simp [get_or_create_prel, hf], ?_⟩
    exact List.any_eq_true.mpr
      ⟨x, List.mem_of_find?_eq_some hf, List.find?_some hf⟩

theorem step_integrity (st : PState) (r : Relation)
    (h : integrityB st = true) :
    integrityB (upsertRelStep st r) = true := by
  rw [integrityB, List.all_eq_true] at h ⊢
  intro row hrow
  rw [Bool.and_eq_true]
  have hrow2 : row ∈ setRelProps
      ((get_or_create_prel ((get_or_create_pnode
        ((get_or_create_pnode st r.source_id).2.2) r.target_id).2.2)
        r.label r.source_id r.target_id).2.2).prels
      r.label r.source_id r.target_id r.properties := hrow
  obtain ⟨row0, hmem0, hlbl, hsrc, htgt⟩ := mem_setRelProps hrow2
  have hs2 : ((get_or_create_pnode ((get_or_create_pnode st
      r.source_id).2.2) r.target_id).2.2).prels = st.prels := by
    rw [prels_goc_pnode, prels_goc_pnode]
  have hmem0' : row0 ∈ st.prels ∨
      (row0.source_id = r.source_id ∧ row0.target_id = r.target_id) := by
    rcases goc_prel_prels ((get_or_create_pnode ((get_or_create_pnode st
        r.source_id).2.2) r.target_id).2.2) r.label r.source_id r.target_id
      with ⟨heq, _⟩ | ⟨_, hep⟩
    · rw [heq, hs2] at hmem0
      exact Or.inl hmem0
    · rw [hep, hs2] at hmem0
      rcases List.mem_append.mp hmem0 with hold | hnew
      · exact Or.inl hold
      · rcases List.mem_singleton.mp hnew with rfl
        exact Or.inr ⟨rfl, rfl⟩
  rcases hmem0' with hold | ⟨hs, ht⟩
  · have := h row0 hold
    rw [Bool.and_eq_true] at this
    rw [hsrc, htgt]
    exact ⟨step_nodes_mono st r _ this.1, step_nodes_mono st r _ this.2⟩
  · rw [hsrc, hs, htgt, ht]
    exact ⟨step_endpoint_src st r, step_endpoint_tgt st r⟩

theorem step_key_self (st : PState) (r : Relation) :
    (upsertRelStep st r).prels.any
      (keyB r.label r.source_id r.target_id) = true := by
  have hs2 : ((get_or_create_pnode ((get_or_create_pnode st
      r.source_id).2.2) r.target_id).2.2).prels = st.prels := by
    rw [prels_goc_pnode, prels_goc_pnode]
  have hs3 : ((get_or_create_prel ((get_or_create_pnode
      ((get_or_create_pnode st r.source_id).2.2) r.target_id).2.2)
      r.label r.source_id r.target_id).2.2).prels.any
      (keyB r.label r.source_id r.target_id) = true := by
    rcases goc_prel_prels ((get_or_create_pnode ((get_or_create_pnode st
        r.source_id).2.2) r.target_id).2.2) r.label r.source_id r.target_id
      with ⟨heq, hany⟩ | ⟨_, hep⟩
    · rw [heq]
      exact heq ▸ hany
    · rw [hep, List.any_append, Bool.or_eq_true]
      right
      simp [keyB]
  rw [upsertRelStep]
  exact any_setRelProps _ (keyB_props _ _ _) hs3

theorem step_key_mono (st : PState) (r q : Relation)
    (h : st.prels.any (keyB q.label q.source_id q.target_id) = true) :
    (upsertRelStep st r).prels.any
      (keyB q.label q.source_id q.target_id) = true := by
  have hs2 : ((get_or_create_pnode ((get_or_create_pnode st
      r.source_id).2.2) r.target_id).2.2).prels = st.prels := by
    rw [prels_goc_pnode, prels_goc_pnode]
  have hs3 : ((get_or_create_prel ((get_or_create_pnode
      ((get_or_create_pnode st r.source_id).2.2) r.target_id).2.2)
      r.label r.source_id r.target_id).2.2).prels.any
      (keyB q.label q.source_id q.target_id) = true := by
    rcases goc_prel_prels ((get_or_create_pnode ((get_or_create_pnode st
        r.source_id).2.2) r.target_id).2.2) r.label r.source_id r.target_id
      with ⟨heq, _⟩ | ⟨_, hep⟩
    · rw [heq, hs2]
      exact h
    · rw [hep, hs2, List.any_append, Bool.or_eq_true]
      exact Or.inl h
  rw [upsertRelStep]
  exact any_setRelProps _ (keyB_props _ _ _) hs3

theorem upsert_nodes_mono (relations : List Relation) :
    ∀ (st : PState) (j : String), nodeIdExists st j = true →
      nodeIdExists (upsert_relations st relations) j = true := by
  induction relations with
  | nil => intro st j h; exact h
  | cons r rest ih =>
    intro st j h
    exact ih (upsertRelStep st r) j (step_nodes_mono st r j h)

theorem upsert_key_mono (relations : List Relation) :
    ∀ (st : PState) (q : Relation),
      st.prels.any (keyB q.label q.source_id q.target_id) = true →
      (upsert_relations st relations).prels.any
        (keyB q.label q.source_id q.target_id) = true := by
  induction relations with
  | nil => intro st q h; exact h
  | cons r rest ih =>
    intro st q h
    exact ih (upsertRelStep st r) q (step_key_mono st r q h)

theorem upsert_integrity (relations : List Relation) :
    ∀ st : PState, integrityB st = true →
      integrityB (upsert_relations st relations) = true := by
  induction relations with
  | nil => intro st h; exact h
  | cons r rest ih =>
    intro st h
    exact ih (upsertRelStep st r) (step_integrity st r h)

theorem upsert_endpoints (relations : List Relation) :
    ∀ (st : PState) (q : Relation), q ∈ relations →
      nodeIdExists (upsert_relations st relations) q.source_id = true ∧
      nodeIdExists (upsert_relations st relations) q.target_id = true := by
  induction relations with
  | nil => intro st q h; cases h
  | cons r rest ih =>
    intro st q hq
    rcases List.mem_cons.mp hq with rfl | hmem
    · exact ⟨upsert_nodes_mono rest _ _ (step_endpoint_src st q),
        upsert_nodes_mono rest _ _ (step_endpoint_tgt st q)⟩
    · exact ih (upsertRelStep st r) q hmem

theorem upsert_key_present (relations : List Relation) :
    ∀ (st : PState) (q : Relation), q ∈ relations →
      (upsert_relations st relations).prels.any
        (keyB q.label q.source_id q.target_id) = true := by
  induction relations with
  | nil => intro st q h; cases h
  | cons r rest ih =>
    intro st q hq
    rcases List.mem_cons.mp hq with rfl | hmem
    · exact upsert_key_mono rest _ _ (step_key_self st q)
    · exact ih (upsertRelStep st r) q hmem

theorem upsert_single_updates (s2 : PState) (r : Relation)
    (hkey : s2.prels.any (keyB r.label r.source_id r.target_id) = true) :
    (upsert_relations s2 [r]).prels.length = s2.prels.length ∧
    (firstRelWithKey (upsert_relations s2 [r]).prels r.label r.source_id
      r.target_id).map (·.properties) = some r.properties := by
  have hone : upsert_relations s2 [r] = upsertRelStep s2 r := by
    simp [upsert_relations]
  have hs2 : ((get_or_create_pnode ((get_or_create_pnode s2
      r.source_id).2.2) r.target_id).2.2).prels = s2.prels := by
    rw [prels_goc_pnode, prels_goc_pnode]
  rcases goc_prel_prels ((get_or_create_pnode ((get_or_create_pnode s2
      r.source_id).2.2) r.target_id).2.2) r.label r.source_id r.target_id
    with ⟨heq, _⟩ | ⟨hnone, _⟩
  · rw [hone, upsertRelStep]
    constructor
    · rw [length_setRelProps, heq, hs2]
    · refine firstRelWithKey_setRelProps _ _ _ _ _ ?_
      rw [heq, hs2]
      exact hkey
  · rw [hs2] at hnone
    rw [hkey] at hnone
    cases hnone

/-- C5: `upsert_relations` get-or-creates (placeholder) node rows for both
endpoint ids of each relation before get-or-creating the relation by its
(label, source_id, target_id) key: referential integrity of the relation
table is preserved, every input relation's endpoints reference existing
node rows after the call, and re-upserting a relation whose key is already
stored overwrites that row's properties without adding a relation row. -/
theorem c5_upsert_relations_integrity (st : PState) (relations : List Relation)
    (s2 : PState) (r : Relation)
    (hint : integrityB st = true)
    (hkey : s2.prels.any (keyB r.label r.source_id r.target_id) = true) :
    integrityB (upsert_relations st relations) = true ∧
    (relations.all (fun q =>
      nodeIdExists (upsert_relations st relations) q.source_id &&
      nodeIdExists (upsert_relations st relations) q.target_id)) = true ∧
    (upsert_relations s2 [r]).prels.length = s2.prels.length ∧
    (firstRelWithKey (upsert_relations s2 [r]).prels r.label r.source_id
      r.target_id).map (·.properties) = some r.properties := by
  refine ⟨upsert_integrity relations st hint, ?_, upsert_single_updates s2 r hkey⟩
  rw [List.all_eq_true]
  intro q hq
  rw [Bool.and_eq_true]
  exact upsert_endpoints relations st q hq

/-- Witness for `c5_upsert_relations_integrity`: a store holding one
relation row with key ("knows", "a", "b") (and its endpoint nodes),
re-upserting that key with new properties. -/
theorem c5_upsert_relations_integrity_witness :
    integrityB (upsert_relations ⟨[], []⟩
      [⟨"knows", "a", "b", [("w", "1")]⟩]) = true ∧
    ([⟨"knows", "a", "b", [("w", "1")]⟩] : List Relation).all (fun q =>
      nodeIdExists (upsert_relations ⟨[], []⟩
        [⟨"knows", "a", "b", [("w", "1")]⟩]) q.source_id &&
      nodeIdExists (upsert_relations ⟨[], []⟩
        [⟨"knows", "a", "b", [("w", "1")]⟩]) q.target_id) = true ∧
    (upsert_relations
      ⟨[⟨"a", none, none, "node", [], none⟩, ⟨"b", none, none, "node", [], none⟩],
       [⟨1, "knows", "a", "b", [("w", "0")]⟩]⟩
      [⟨"knows", "a", "b", [("w", "1")]⟩]).prels.length =
      (⟨[⟨"a", none, none, "node", [], none⟩, ⟨"b", none, none, "node", [], none⟩],
        [⟨1, "knows", "a", "b", [("w", "0")]⟩]⟩ : PState).prels.length ∧
    (firstRelWithKey (upsert_relations
      ⟨[⟨"a", none, none, "node", [], none⟩, ⟨"b", none, none, "node", [], none⟩],
       [⟨1, "knows", "a", "b", [("w", "0")]⟩]⟩
      [⟨"knows", "a", "b", [("w", "1")]⟩]).prels "knows" "a" "b").map
      (·.properties) = some [("w", "1")] :=
  c5_upsert_relations_integrity ⟨[], []⟩ [⟨"knows", "a", "b", [("w", "1")]⟩]
    ⟨[⟨"a", none, none, "node", [], none⟩, ⟨"b", none, none, "node", [], none⟩],
     [⟨1, "knows", "a", "b", [("w", "0")]⟩]⟩
    ⟨"knows", "a", "b", [("w", "1")]⟩ (by decide) (by decide)

/-- C10: `upsert_relations` commits at the end of every loop iteration
(one committed snapshot per input relation), so the operation is not
atomic over its input: when processing of the relation at index `i` fails,
the state persisted by the earlier commits still contains, for every
relation among the first `i`, a relation row with its key and node rows
for both of its endpoints. -/
theorem c10_upsert_relations_partial (st : PState)
    (relations : List Relation) (i : Nat) :
    (upsert_relations_commits st relations).length = relations.length ∧
    ((relations.take i).all (fun q =>
      (upsert_relations_failing_at st relations i).prels.any
        (keyB q.label q.source_id q.target_id) &&
      nodeIdExists (upsert_relations_failing_at st relations i) q.source_id &&
      nodeIdExists (upsert_relations_failing_at st relations i) q.target_id))
      = true := by
  constructor
  · have hgen : ∀ (rels : List Relation) (acc : List PState × PState),
        ((rels.foldl
          (fun a r => (a.1 ++ [upsertRelStep a.2 r], upsertRelStep a.2 r))
          acc).1).length = acc.1.length + rels.length := by
      intro rels
      induction rels with
      | nil => intro acc; simp
      | cons r rest ih =>
        intro acc
        rw [List.foldl_cons, ih]
        simp
        omega
    rw [upsert_relations_commits, hgen]
    simp
  · rw [List.all_eq_true]
    intro q hq
    rw [Bool.and_eq_true, Bool.and_eq_true]
    have hmem : q ∈ relations.take i := hq
    exact ⟨⟨upsert_key_present (relations.take i) st q hmem,
      (upsert_endpoints (relations.take i) st q hmem).1⟩,
      (upsert_endpoints (relations.take i) st q hmem).2⟩

/-! ### Property store: `vector_query` (`property_graph.py` 380-413) -/

/-- Null-first ascending comparison on nullable distance scores: the SQL
`ORDER BY embedding_distance ASC` of the backing store (MySQL semantics)
sorts NULL before every non-NULL value. -/
def optLeB : Option ℚ → Option ℚ → Bool
  | none, _ => true
  | some _, none => false
  | some a, some b => decide (a ≤ b)

/-- Insertion into a score-sorted row list (model of the ORDER BY). -/
def insScore (x : PNode × Option ℚ) :
    List (PNode × Option ℚ) → List (PNode × Option ℚ)
  | [] => [x]
  | y :: t => if optLeB x.2 y.2 then x :: y :: t else y :: insScore x t

/-- Sort the selected rows by score, null-first ascending. -/
def sortScores : List (PNode × Option ℚ) → List (PNode × Option ℚ)
  | [] => []
  | x :: t => insScore x (sortScores t)

/-- Rows selected by `vector_query`'s statement: node rows with a non-null
name (the only filter the source applies), paired with
`cosine_distance(embedding, query_embedding)` — NULL when the stored
embedding is NULL, since an SQL function of NULL is NULL — ordered by the
distance label ascending and capped at `similarity_top_k`. The cosine
distance itself is computed by the backing store (`tidb_vector`), so it is
a parameter `dist` of the model. -/
def vector_query_rows (dist : List ℚ → List ℚ → ℚ) (st : PState)
    (q : List ℚ) (k : Nat) : List (PNode × Option ℚ) :=
  (sortScores ((st.nodes.filter (fun n => !n.name.isNone)).map
    (fun n => (n, n.embedding.map (fun e => dist e q))))).take k

/-- Shape of the `EntityNode(name=..., label=..., properties=...)` values
`vector_query` returns. -/
structure EntityNodeV where
  name : Option String
  label : String
  properties : List (String × String)
  deriving DecidableEq, Repr

/-- `TiDBPropertyGraphStore.vector_query`: the selected rows projected to
`EntityNode`s plus the parallel score list. -/
def vector_query (dist : List ℚ → List ℚ → ℚ) (st : PState)
    (q : List ℚ) (k : Nat) : List EntityNodeV × List (Option ℚ) :=
  ((vector_query_rows dist st q k).map
    (fun p => ⟨p.1.name, p.1.label, remove_empty_values p.1.properties⟩),
   (vector_query_rows dist st q k).map (·.2))

/-- Adjacent-pairs sortedness of a row list by score. -/
def pairsSortedB : List (PNode × Option ℚ) → Bool
  | [] => true
  | [_] => true
  | x :: y :: t => optLeB x.2 y.2 && pairsSortedB (y :: t)

/-- Adjacent-pairs sortedness of a score list, null-first ascending. -/
def scoresSortedB : List (Option ℚ) → Bool
  | [] => true
  | [_] => true
  | a :: b :: t => optLeB a b && scoresSortedB (b :: t)

theorem optLeB_total (a b : Option ℚ) :
    optLeB a b = true ∨ optLeB b a = true := by
  rcases a with _ | x
  · exact Or.inl rfl
  · rcases b with _ | y
    · exact Or.inr rfl
    · rcases le_total x y with h | h
      · exact Or.inl (by simp [optLeB, h])
      · exact Or.inr (by simp [optLeB, h])

theorem pairsSortedB_tail {y : PNode × Option ℚ} {t : List (PNode × Option ℚ)}
    (h : pairsSortedB (y :: t) = true) : pairsSortedB t = true := by
  cases t with
  | nil => rfl
  | cons z t2 =>
    rw [pairsSortedB, Bool.and_eq_true] at h
    exact h.2

theorem pairsSortedB_insScore (x : PNode × Option ℚ) :
    ∀ l : List (PNode × Option ℚ), pairsSortedB l = true →
      pairsSortedB (insScore x l) = true := by
  intro l
  induction l with
  | nil => intro _; rfl
  | cons y t ih =>
    intro h
    by_cases hxy : optLeB x.2 y.2 = true
    · rw [insScore, if_pos hxy, pairsSortedB, hxy, h]
      rfl
    · rw [insScore, if_neg hxy]
      have htail : pairsSortedB t = true := pairsSortedB_tail h
      have hins := ih htail
      have hyx : optLeB y.2 x.2 = true :=
        (optLeB_total x.2 y.2).resolve_left hxy
      cases t with
      | nil =>
        rw [insScore, pairsSortedB, hyx]
        rfl
      | cons z t2 =>
        by_cases hxz : optLeB x.2 z.2 = true
        · rw [insScore, if_pos hxz, pairsSortedB, hyx]
          have h2 : pairsSortedB (x :: z :: t2) = true := by
            rw [pairsSortedB, hxz, htail]
            rfl
          rw [h2]
          rfl
        · have hzs : pairsSortedB (z :: insScore x t2) = true := by
            have h3 := hins
            rw [insScore, if_neg hxz] at h3
            exact h3
          have hyz : optLeB y.2 z.2 = true := by
            have h4 := h
            rw [pairsSortedB, Bool.and_eq_true] at h4
            exact h4.1
          rw [insScore, if_neg hxz, pairsSortedB, hyz, hzs]
          rfl

theorem pairsSortedB_sortScores (l : List (PNode × Option ℚ)) :
    pairsSortedB (sortScores l) = true := by
  induction l with
  | nil => rfl
  | cons x t ih => exact pairsSortedB_insScore x (sortScores t) ih

theorem pairsSortedB_take : ∀ (k : Nat) (l : List (PNode × Option ℚ)),
    pairsSortedB l = true → pairsSortedB (l.take k) = true := by
  intro k
  induction k with
  | zero => intro l _; rfl
  | succ n ih =>
    intro l h
    cases l with
    | nil => rfl
    | cons x t =>
      cases t with
      | nil => simpa [List.take] using h
      | cons y t2 =>
        rw [List.take_succ_cons]
        cases n with
        | zero => rfl
        | succ m =>
          rw [pairsSortedB, Bool.and_eq_true] at h
          obtain ⟨hxy, ht⟩ := h
          have h2 := ih (y :: t2) ht
          rw [List.take_succ_cons] at h2
          rw [List.take_succ_cons, pairsSortedB, hxy, h2]
          rfl

theorem scoresSortedB_map (l : List (PNode × Option ℚ)) :
    scoresSortedB (l.map (·.2)) = pairsSortedB l := by
  induction l with
  | nil => rfl
  | cons x t ih =>
    cases t with
    | nil => rfl
    | cons y t2 =>
      have h2 := ih
      rw [List.map_cons] at h2
      rw [List.map_cons, List.map_cons, scoresSortedB, pairsSortedB, h2]

theorem mem_insScore {z x : PNode × Option ℚ} :
    ∀ {l : List (PNode × Option ℚ)}, z ∈ insScore x l → z = x ∨ z ∈ l := by
  intro l
  induction l with
  | nil =>
    intro h
    exact Or.inl (List.mem_singleton.mp h)
  | cons y t ih =>
    intro h
    by_cases hxy : optLeB x.2 y.2 = true
    · rw [insScore, if_pos hxy] at h
      rcases List.mem_cons.mp h with rfl | h2
      · exact Or.inl rfl
      · exact Or.inr h2
    · rw [insScore, if_neg hxy] at h
      rcases List.mem_cons.mp h with rfl | h2
      · exact Or.inr (List.mem_cons_self _ _)
      · rcases ih h2 with rfl | h3
        · exact Or.inl rfl
        · exact Or.inr (List.mem_cons_of_mem _ h3)

theorem mem_sortScores {z : PNode × Option ℚ} :
    ∀ {l : List (PNode × Option ℚ)}, z ∈ sortScores l → z ∈ l := by
  intro l
  induction l with
  | nil => intro h; cases h
  | cons x t ih =>
    intro h
    rcases mem_insScore h with rfl | h2
    · exact List.mem_cons_self _ _
    · exact List.mem_cons_of_mem _ (ih h2)

/-- C6 (amended): `vector_query` returns at most `k` nodes with their
score list, the scores are in non-decreasing null-first order, and no
returned node row has a null name. (The claim's further assertion that no
returned node has a null embedding fails: the source filters only on the
name, so named nodes without an embedding are returned with a NULL
distance — see the counterexample.) -/
theorem c6_vector_query_ordered (dist : List ℚ → List ℚ → ℚ) (st : PState)
    (q : List ℚ) (k : Nat) :
    (vector_query dist st q k).1.length ≤ k ∧
    (vector_query dist st q k).2.length ≤ k ∧
    scoresSortedB (vector_query dist st q k).2 = true ∧
    (vector_query_rows dist st q k).all (fun p => !p.1.name.isNone) = true := by
  refine ⟨?_, ?_, ?_, ?_⟩
  · rw [vector_query]
    simp only [List.length_map]
    exact le_trans (Nat.le_of_eq (List.length_take _ _)) (min_le_left _ _)
  · rw [vector_query]
    simp only [List.length_map]
    exact le_trans (Nat.le_of_eq (List.length_take _ _)) (min_le_left _ _)
  · rw [vector_query]
    simp only []
    rw [scoresSortedB_map]
    exact pairsSortedB_take k _ (pairsSortedB_sortScores _)
  · rw [List.all_eq_true]
    intro p hp
    have h1 : p ∈ sortScores ((st.nodes.filter (fun n => !n.name.isNone)).map
        (fun n => (n, n.embedding.map (fun e => dist e q)))) :=
      List.take_subset _ _ hp
    have h2 := mem_sortScores h1
    obtain ⟨n, hn, rfl⟩ := List.mem_map.mp h2
    exact (List.mem_filter.mp hn).2

/-- Store with one named node that has no stored embedding. -/
def c6ExState : PState :=
  ⟨[⟨"n1", none, some "n1", "node", [], none⟩], []⟩

/-- C6 counterexample: on a store holding a single named node whose
embedding column is NULL, `vector_query` returns that node (its score
being the NULL distance): a returned node can have a null embedding,
refuting that part of the claim. -/
theorem c6_counterexample :
    (vector_query_rows (fun _ _ => 0) c6ExState [1] 3).map
      (fun p => p.1.embedding) = [none] ∧
    (vector_query (fun _ _ => 0) c6ExState [1] 3).1 =
      [⟨some "n1", "node", []⟩] ∧
    (vector_query (fun _ _ => 0) c6ExState [1] 3).2 = [none] := by
  constructor
  · rfl
  · exact ⟨rfl, rfl⟩

/-! ### Property store: `get_triplets` (`property_graph.py` 165-223)

The properties filter of the source,

```
query.filter(
    self._relation_model.properties[key].astext
    == value | self._relation_model.source.properties[key].astext
    == value | self._relation_model.target.properties[key].astext
    == value
)
```

is a Python chained comparison (`|` binds tighter than `==`), so for a
non-empty properties dict the first loop iteration evaluates operands such
as `self._relation_model.properties[key].astext` (the generic JSON column
has no `astext` accessor — that is PostgreSQL-JSONB-specific) and
`self._relation_model.source.properties` (attribute navigation through a
relationship, which SQLAlchemy rejects); the first of these raises an
`AttributeError` before any SQL runs. The `entity_names` filter navigates
`self._relation_model.source.name` and fails the same way. The call
therefore raises instead of returning rows whenever either of these
filters is non-empty. -/

/-- Node row an id joins to (ids are primary keys). -/
def findPNode (st : PState) (i : String) : Option PNode :=
  st.nodes.find? (fun n => n.id == i)

/-- Resolve each relation row to `[source, relation, target]` through the
`r.source` / `r.target` relationship loads (a dangling foreign key would
surface as an attribute error on `None`). -/
def joinTriplets (st : PState) :
    List PRel → Except String (List (PNode × PRel × PNode))
  | [] => .ok []
  | r :: t =>
    match findPNode st r.source_id, findPNode st r.target_id with
    | some a, some b =>
      match joinTriplets st t with
      | .ok rest => .ok ((a, r, b) :: rest)
      | .error e => .error e
    | _, _ => .error "AttributeError"

/-- `TiDBPropertyGraphStore.get_triplets`: empty guard when every filter is
absent, id membership filter on source or target, the broken properties
and entity-names filters (which raise, see above), label membership
filter, then the join to node rows. -/
def get_triplets (st : PState) (entity_names relation_names : List String)
    (properties : List (String × String)) (ids : List String) :
    Except String (List (PNode × PRel × PNode)) :=
  if ids.isEmpty && properties.isEmpty && entity_names.isEmpty &&
      relation_names.isEmpty then
    .ok []
  else
    let q1 := if !ids.isEmpty then
        st.prels.filter (fun r =>
          ids.contains r.source_id || ids.contains r.target_id)
      else st.prels
    if !properties.isEmpty then .error "AttributeError"
    else if !entity_names.isEmpty then .error "AttributeError"
    else
      let q2 := if !relation_names.isEmpty then
          q1.filter (fun r => relation_names.contains r.label)
        else q1
      joinTriplets st q2

/-- Follows the claim's words, not the source: the relations matching any
one of the listed property key-value pairs (disjunctive matching). -/
def disjunctivePropMatch (st : PState)
    (properties : List (String × String)) : List PRel :=
  st.prels.filter (fun r =>
    properties.any (fun kv => r.properties.lookup kv.1 == some kv.2))

/-- Store with one relation whose properties match the first of two filter
keys. -/
def c7ExState : PState :=
  ⟨[⟨"a", none, some "a", "node", [], none⟩,
    ⟨"b", none, some "b", "node", [], none⟩],
   [⟨1, "knows", "a", "b", [("k1", "v1")]⟩]⟩

/-- C7 counterexample: with the two-key properties filter
`{k1: v1, k2: v2}` the claim predicts the disjunctively matching relation
row (which exists) is returned, but `get_triplets` raises an
`AttributeError` while building the filter and returns no rows at all. -/
theorem c7_counterexample :
    get_triplets c7ExState [] [] [("k1", "v1"), ("k2", "v2")] [] =
      .error "AttributeError" ∧
    disjunctivePropMatch c7ExState [("k1", "v1"), ("k2", "v2")] =
      [⟨1, "knows", "a", "b", [("k1", "v1")]⟩] := by
  constructor
  · rfl
  · rfl

/-- C7 (amended): whenever `get_triplets` is called with a non-empty
properties filter it raises an `AttributeError` while composing the filter
expression (Python operator precedence turns it into a chained comparison
over invalid SQLAlchemy attribute navigations), so it returns no rows —
neither disjunctive nor conjunctive matching takes place. -/
theorem c7_get_triplets_properties_error (st : PState)
    (entity_names relation_names : List String)
    (properties : List (String × String)) (ids : List String)
    (hne : properties ≠ []) :
    get_triplets st entity_names relation_names properties ids =
      .error "AttributeError" := by
  have h1 : properties.isEmpty = false := by
    cases properties with
    | nil => exact absurd rfl hne
    | cons a t => rfl
  rw [get_triplets]
  rw [h1]
  simp

/-- Witness for `c7_get_triplets_properties_error` at the concrete store
`c7ExState` and the single-key properties filter `{k1: v1}`. -/
theorem c7_get_triplets_properties_error_witness :
    get_triplets c7ExState [] [] [("k1", "v1")] [] =
      .error "AttributeError" :=
  c7_get_triplets_properties_error c7ExState [] [] [("k1", "v1")] []
    (by decide)

/-! ### C8: `get_rel_map` on an empty seed set -/

/-- Relation rows of the property store's recursive CTE at a given depth
(`rel_depth_query` of `property_graph.py` 38-70, which chains
`source_id`/`target_id` string ids instead of the simple store's integer
entity ids). -/
def pgCteLevel (st : PState) (ids : List String) : Nat → List PRel
  | 0 => []
  | 1 => st.prels.filter (fun r => ids.contains r.source_id)
  | d + 2 =>
    (pgCteLevel st ids (d + 1)).flatMap
      (fun p => st.prels.filter (fun r => r.source_id == p.target_id))

/-- Result rows of the property store's recursive query: levels joined to
both endpoint node rows, ordered by depth, capped at `limit`. -/
def pgCteRows (st : PState) (ids : List String) (depth limit : Nat) :
    List (PNode × PRel × PNode) :=
  ((List.range' 1 depth).flatMap (fun d =>
    (pgCteLevel st ids d).filterMap (fun r =>
      match findPNode st r.source_id, findPNode st r.target_id with
      | some a, some b => some (a, r, b)
      | _, _ => none))).take limit

/-- `TiDBPropertyGraphStore.get_rel_map`, instrumented with the number of
queries issued: the source computes the seed ids, returns `[]` before
opening a session when they are empty, and otherwise executes the
recursive query once and drops rows whose relation label is ignored. -/
def pg_get_rel_map_run (st : PState) (ids : List String)
    (depth limit : Nat) (ignore_rels : List String) :
    List (PNode × PRel × PNode) × Nat :=
  if ids.isEmpty then ([], 0)
  else
    ((pgCteRows st ids depth limit).filter
      (fun row => !(ignore_rels.contains row.2.1.label)), 1)

theorem cteLevel_empty_seeds (st : SimpleState) :
    ∀ d, cteLevel st [] d = []
  | 0 => rfl
  | 1 => by
    rw [cteLevel]
    refine List.filter_eq_nil_iff.mpr ?_
    intro r _
    have : seedIds st [] = [] := by
      rw [seedIds]
      have : st.entities.filter (fun e => List.contains [] e.name) = [] :=
        List.filter_eq_nil_iff.mpr (fun e _ => by simp [List.contains])
      rw [this]
      rfl
    simp [this]
  | d + 2 => by
    rw [cteLevel, cteLevel_empty_seeds st (d + 1)]
    rfl

theorem cteRows_empty_seeds (st : SimpleState) (depth limit : Nat) :
    cteRows st [] depth limit = [] := by
  rw [cteRows]
  have : ∀ d, (cteLevel st [] d).filterMap (fun r =>
      match entName st r.subject_id, entName st r.object_id with
      | some a, some b => some (⟨d, a, r.description, b⟩ : CteRow)
      | _, _ => none) = [] := by
    intro d
    rw [cteLevel_empty_seeds]
    rfl
  rw [List.flatMap_eq_nil_iff.mpr (fun d _ => this d)]
  exact List.take_nil

/-- C8 counterexample: on the simple store, `get_rel_map` with an empty
seed list still issues its recursive query (the source has no empty-seed
guard and calls `session.execute` unconditionally); the result is the
empty mapping, but the claimed "without issuing any query" is false for
this variant. -/
theorem c8_counterexample :
    get_rel_map_run chainState [] 2 30 = ([], 1) := by
  rw [get_rel_map_run, cteRows_empty_seeds]
  rfl

/-- C8 (amended): with an empty seed set the property store's
`get_rel_map` returns the empty result without issuing any query, while
the simple store's `get_rel_map` still issues its one recursive query —
which selects nothing, so the returned mapping is empty as well. -/
theorem c8_empty_seeds (pst : PState) (depth limit : Nat)
    (ignore_rels : List String) (st : SimpleState) (depth2 limit2 : Nat) :
    pg_get_rel_map_run pst [] depth limit ignore_rels = ([], 0) ∧
    get_rel_map_run st [] depth2 limit2 = ([], 1) := by
  constructor
  · rfl
  · rw [get_rel_map_run, cteRows_empty_seeds]
    rfl

end TiDB
